import Mathlib

/-!
Verification development for the `unittestgeneration.py` batch orchestrator.

The program discovers Python source files, sends each one to a remote
generation service, extracts a code block from the response, maps the source
path to a mirrored `tests/` path, and writes the result, with per-file
failure isolation and an aggregate summary / exit-code contract.

Strings are modelled as `List Char` (Python `str` values are sequences of
code points).  The Python string primitives used by the program
(`str.split` on a non-empty separator, `str.strip`, substring membership
`in`, `str.startswith`, `str.endswith`, `os.path.split`, `os.path.splitext`,
`os.path.join`, `os.path.basename` for POSIX `os.sep = "/"`) are embedded
as executable Lean functions below, and the program's functions
(`extract_code_from_response`, `to_test_path`, `should_skip`, and the
orchestration loop of `main`) are translated on top of them.

The remote generation call and the filesystem write are external effects;
they are modelled as oracle functions returning `Except`, mirroring the
fact that any Python exception raised by them is caught by the per-file
`try/except` in `main`.
-/

/-- The backtick character, code point 96 (written via an escape). -/
def btick : Char := '\x60'

/-- The marker `"```python"` that opens a language-tagged fenced block. -/
def pyMarker : List Char := [btick, btick, btick, 'p', 'y', 't', 'h', 'o', 'n']

/-- The generic fence marker `"```"`. -/
def fenceMarker : List Char := [btick, btick, btick]

/-- Python ASCII whitespace characters removed by `str.strip()`
(space, tab, newline, carriage return, vertical tab, form feed). -/
def isPySpace (c : Char) : Bool :=
  c == ' ' || c == '\t' || c == '\n' || c == '\r' || c == '\x0b' || c == '\x0c'

/-- Python `str.strip()`: remove leading and trailing whitespace. -/
def pyStrip (s : List Char) : List Char :=
  ((s.dropWhile isPySpace).reverse.dropWhile isPySpace).reverse

/-- Python substring membership `sep in s` (for our non-empty separators):
true when `sep` occurs contiguously inside `s`. -/
def pyContains (sep : List Char) : List Char → Bool
  | [] => sep.isEmpty
  | c :: rest => sep.isPrefixOf (c :: rest) || pyContains sep rest

/-- Fueled worker for Python `str.split(sep)` with a non-empty separator:
scan left to right, cut at each non-overlapping occurrence of `sep`.
`acc` holds the reversed characters of the part being built.  The fuel is
always instantiated to the length of the scanned text, which suffices. -/
def splitAux (sep : List Char) : Nat → List Char → List Char → List (List Char)
  | _, [], acc => [acc.reverse]
  | 0, s, acc => [acc.reverse ++ s]
  | n + 1, c :: rest, acc =>
    if sep.isPrefixOf (c :: rest) then
      acc.reverse :: splitAux sep n ((c :: rest).drop sep.length) []
    else
      splitAux sep n rest (c :: acc)

/-- Python `s.split(sep)` for a non-empty separator `sep`
(Python raises `ValueError` on an empty separator; the guard value for
`sep = []` is never used by the program, whose separators are
`"```python"`, `"```"` and `"/"`). -/
def pySplit (sep s : List Char) : List (List Char) :=
  if sep.isEmpty then [s] else splitAux sep s.length s []

/-- `extract_code_from_response` (source lines 48-60): extract the Python
code payload from a markdown-formatted response.
If `"```python"` occurs, split on it and return the text of the second
part up to the next `"```"`, stripped; else if `"```"` occurs, return the
second part of the split on it, stripped; else return the whole input,
stripped.  (When the `in` test succeeds the split necessarily has more
than one part, and Python then returns inside the branch; when it could
not, control would fall through to the final `return content.strip()`,
which the `else` arms mirror.) -/
def extract_code_from_response (content : List Char) : List Char :=
  if pyContains pyMarker content then
    let parts := pySplit pyMarker content
    if 1 < parts.length then
      pyStrip ((pySplit fenceMarker (parts.getD 1 [])).getD 0 [])
    else
      pyStrip content
  else if pyContains fenceMarker content then
    let parts := pySplit fenceMarker content
    if 1 < parts.length then
      pyStrip (parts.getD 1 [])
    else
      pyStrip content
  else
    pyStrip content

/-- `os.path.basename` for POSIX paths: the maximal slash-free suffix
(the part after the last `/`, or the whole path when it has no `/`). -/
def osBasename (p : List Char) : List Char :=
  (p.reverse.takeWhile (fun c => !(c == '/'))).reverse

/-- `os.path.split` for POSIX paths: `(head, tail)` where `tail` is the
part after the last slash and `head` is the part before it, with trailing
slashes stripped from `head` unless `head` consists only of slashes. -/
def osPathSplit (p : List Char) : List Char × List Char :=
  let tail := osBasename p
  let head := p.take (p.length - tail.length)
  let head2 :=
    if head.isEmpty || head.all (fun c => c == '/') then head
    else (head.reverse.dropWhile (fun c => c == '/')).reverse
  (head2, tail)

/-- `os.path.splitext` applied to a (slash-free) filename: split off the
extension at the last dot, except that a dot with only dots before it in
the name yields no extension (`".py"` and `"..py"` have no extension). -/
def osSplitext (f : List Char) : List Char × List Char :=
  let extRev := f.reverse.takeWhile (fun c => !(c == '.'))
  if extRev.length == f.length then (f, [])
  else
    let stem := f.take (f.length - extRev.length - 1)
    if stem.all (fun c => c == '.') then (f, [])
    else (stem, f.drop (f.length - extRev.length - 1))

/-- One step of POSIX `os.path.join`: append component `b` to `path`.
An absolute `b` replaces `path`; otherwise a `/` is inserted unless
`path` is empty or already ends with `/`. -/
def joinStep (path b : List Char) : List Char :=
  if ['/'].isPrefixOf b then b
  else if path = [] ∨ path.getLast? = some '/' then path ++ b
  else path ++ '/' :: b

/-- The `"src/"` layout marker checked by `to_test_path`
(`py_file.startswith("src" + os.sep)` with `os.sep = "/"`). -/
def srcRoot : List Char := ['s', 'r', 'c', '/']

/-- The `"test_"` filename marker. -/
def testMarker : List Char := ['t', 'e', 's', 't', '_']

/-- The fixed destination root `"tests"`. -/
def testsRoot : List Char := ['t', 'e', 's', 't', 's']

/-- The mapping applied by `to_test_path` after the optional `"src/"`
strip (source lines 75-79): split into directory and filename, split the
filename into stem and extension, and join
`"tests" / dirname / ("test_" + name + ext)`. -/
def mapRel (rel : List Char) : List Char :=
  let dn := osPathSplit rel
  let ne := osSplitext dn.2
  let test_filename := testMarker ++ ne.1 ++ ne.2
  joinStep (joinStep testsRoot dn.1) test_filename

/-- `to_test_path` (source lines 62-79): map a source file path to its
mirrored path under `tests/`, stripping one leading `"src/"` if present. -/
def to_test_path (py_file : List Char) : List Char :=
  let rel := if srcRoot.isPrefixOf py_file then py_file.drop srcRoot.length else py_file
  mapRel rel

/-- The excluded directory segment names of `should_skip`
(source line 120). -/
def excludedNames : List (List Char) :=
  ["tests".data, "venv".data, ".venv".data, "env".data, ".env".data,
   "build".data, "dist".data, "__pycache__".data]

/-- `should_skip` (source lines 116-125): a path is skipped when some
`/`-separated segment starts with `"."`, or some segment is one of the
excluded directory names, or its basename starts with `"test_"`. -/
def should_skip (path : List Char) : Bool :=
  let parts := pySplit ['/'] path
  if parts.any (fun seg => ['.'].isPrefixOf seg) then true
  else if parts.any (fun seg => excludedNames.contains seg) then true
  else if testMarker.isPrefixOf (osBasename path) then true
  else false

/-- The discovery filter of `main` (source line 127): keep candidates that
end in `".py"`, are regular files (an oracle, since this queries the
filesystem), and are not skipped.  The candidate list itself comes from
the union of the three `glob` strategies, which is likewise external. -/
def discoveredFiles (isFile : List Char → Bool) (candidates : List (List Char)) :
    List (List Char) :=
  candidates.filter (fun p => ".py".data.isSuffixOf p && isFile p && !should_skip p)

/-- Python `<` on strings: lexicographic comparison by code point, a
proper prefix comparing smaller. -/
def listLt : List Char → List Char → Bool
  | [], [] => false
  | [], _ :: _ => true
  | _ :: _, [] => false
  | a :: as, b :: bs => decide (a < b) || (a == b && listLt as bs)

/-- The non-strict order used to model Python `sorted`. -/
def lexLe (a b : List Char) : Bool := !(listLt b a)

/-- Insert into a sorted list, keeping earlier-inserted equal elements in
place (the stable insertion underlying the model of `sorted`). -/
def insertLe (a : List Char) : List (List Char) → List (List Char)
  | [] => [a]
  | b :: bs => if lexLe a b then a :: b :: bs else b :: insertLe a bs

/-- Python `sorted(py_files)` (source line 139), modelled as insertion
sort by `lexLe`.  Python's sort is stable, and a stable sort by a total
order is unique, so any faithful model computes this list. -/
def sortFiles : List (List Char) → List (List Char)
  | [] => []
  | a :: as => insertLe a (sortFiles as)

/-- The external effects of one per-file iteration: `gen` is
`generate_unit_test` (reads the source file and performs the remote
call; returns the response text or raises), and `write` is the
`os.makedirs` + `open`/`write` step (raises on filesystem errors).
Exceptions are modelled as `Except.error` with a message. -/
structure Env where
  gen : List Char → Except String (List Char)
  write : List Char → List Char → Except String Unit

/-- The body of the `try` block of `main` (source lines 141-152) for one
file: generate, extract, map the path, write; any failing step aborts
this file's sequence with an error. -/
def processFile (env : Env) (py_file : List Char) :
    Except String (List Char × List Char) := do
  let content ← env.gen py_file
  let test_code := extract_code_from_response content
  let test_file := to_test_path py_file
  env.write test_file test_code
  pure (test_file, test_code)

/-- Whether a file's per-file sequence succeeds under `env`. -/
def fileOk (env : Env) (py_file : List Char) : Bool :=
  match processFile env py_file with
  | .ok _ => true
  | .error _ => false

/-- The successful write produced for one file, if any. -/
def writeOf (env : Env) (py_file : List Char) : Option (List Char × List Char) :=
  match processFile env py_file with
  | .ok w => some w
  | .error _ => none

/-- Aggregate outcome of a run: the two summary counters, the ordered
list of performed writes (path, content), and the process exit code. -/
structure RunResult where
  successCount : Nat
  errorCount : Nat
  writes : List (List Char × List Char)
  exitCode : Nat
deriving DecidableEq, Repr

/-- One iteration of the `for py_file in sorted(py_files)` loop
(source lines 139-155): on success count it and record the write, on any
exception count the failure and continue. -/
def stepFile (env : Env) (acc : RunResult) (f : List Char) : RunResult :=
  match processFile env f with
  | .ok w =>
    { acc with successCount := acc.successCount + 1, writes := acc.writes ++ [w] }
  | .error _ =>
    { acc with errorCount := acc.errorCount + 1 }

/-- The post-initialization behavior of `main` (source lines 129-168),
given the already-discovered `py_files`: with no files, warn and exit 0
having written nothing; otherwise process the files in sorted order and
exit 1 exactly when at least one file failed. -/
def mainRun (env : Env) (py_files : List (List Char)) : RunResult :=
  if py_files.isEmpty then
    { successCount := 0, errorCount := 0, writes := [], exitCode := 0 }
  else
    let r := (sortFiles py_files).foldl (stepFile env) ⟨0, 0, [], 0⟩
    { r with exitCode := if 0 < r.errorCount then 1 else 0 }

/-- Overwrite-on-write filesystem semantics: apply a list of writes to a
map from path to content, later writes replacing earlier ones. -/
def applyWrites (fs : List Char → Option (List Char)) :
    List (List Char × List Char) → List Char → Option (List Char)
  | [], p => fs p
  | w :: ws, p => applyWrites (fun q => if q = w.1 then some w.2 else fs q) ws p

/-- Python truthiness of a string: falsy exactly when empty. -/
def pyTruthy (s : List Char) : Bool := !s.isEmpty

/-- The baked-in endpoint literal of `main` (source line 83). -/
def endpointLit : List Char := "https://projectpulselab.openai.azure.com/".data

/-- The baked-in API key literal of `main` (source line 84). -/
def apiKeyLit : List Char :=
  "76iR6QZTDWlbPZLloG0dycl2CPHYXw9rfnYcgyr7BvKLn6yBdYKIJQQJ99BLACYeBjFXJ3w3AAABACOGSRML".data

/-- The baked-in deployment literal of `main` (source line 85). -/
def deploymentLit : List Char := "gpt-4.1-01".data

/-- The guard of the missing-credentials branch (source line 88):
`not all([endpoint, api_key, deployment])`. -/
def credentialsMissing : Bool :=
  !(pyTruthy endpointLit && pyTruthy apiKeyLit && pyTruthy deploymentLit)

/-- A concrete oracle environment whose generation and write always
succeed (the generated text carries no fences). -/
def envOk : Env :=
  { gen := fun _ => .ok ("x = 1".data), write := fun _ _ => .ok () }

/-- A concrete oracle environment in which the generation call raises
exactly for `bad.py` and succeeds otherwise (end-to-end scenario 3 of the
specification). -/
def envOneBad : Env :=
  { gen := fun f =>
      if f = "bad.py".data then .error ("generation failed")
      else .ok ("```python\nassert True\n```".data),
    write := fun _ _ => .ok () }

/-! ### Basic facts about `isPrefixOf` and `pyContains` -/

lemma nil_isPrefixOf (l : List Char) : ([] : List Char).isPrefixOf l = true := by
  cases l <;> rfl

lemma cons_isPrefixOf_cons (a b : Char) (as bs : List Char) :
    (a :: as).isPrefixOf (b :: bs) = (a == b && as.isPrefixOf bs) := rfl

lemma isPrefixOf_self_append (l t : List Char) : l.isPrefixOf (l ++ t) = true := by
  induction l with
  | nil => exact nil_isPrefixOf t
  | cons c cs ih => simp only [List.cons_append, cons_isPrefixOf_cons, ih, beq_self_eq_true,
      Bool.and_self]

lemma eq_append_of_isPrefixOf {x y : List Char} (h : x.isPrefixOf y = true) :
    ∃ t, y = x ++ t := by
  induction x generalizing y with
  | nil => exact ⟨y, rfl⟩
  | cons c cs ih =>
    cases y with
    | nil => simp [List.isPrefixOf] at h
    | cons d ds =>
      rw [cons_isPrefixOf_cons, Bool.and_eq_true, beq_iff_eq] at h
      obtain ⟨t, ht⟩ := ih h.2
      exact ⟨t, by rw [List.cons_append, ← h.1, ← ht]⟩

lemma isPrefixOf_of_append {x u s : List Char} (h : (x ++ u).isPrefixOf s = true) :
    x.isPrefixOf s = true := by
  induction x generalizing s with
  | nil => exact nil_isPrefixOf s
  | cons c cs ih =>
    cases s with
    | nil => simp [List.isPrefixOf] at h
    | cons d ds =>
      rw [List.cons_append, cons_isPrefixOf_cons, Bool.and_eq_true] at h
      rw [cons_isPrefixOf_cons, Bool.and_eq_true]
      exact ⟨h.1, ih h.2⟩

lemma isPrefixOf_cons_false {hd c : Char} {s' rest : List Char} (h : c ≠ hd) :
    (hd :: s').isPrefixOf (c :: rest) = false := by
  rw [cons_isPrefixOf_cons, Bool.and_eq_false_iff]
  left
  exact beq_eq_false_iff_ne.mpr (fun he => h he.symm)

lemma pyContains_nil_sep (s : List Char) : pyContains [] s = true := by
  cases s with
  | nil => rfl
  | cons c rest => simp only [pyContains, nil_isPrefixOf, Bool.true_or]

lemma pyContains_occ (sep a b : List Char) :
    pyContains sep (a ++ sep ++ b) = true := by
  induction a with
  | nil =>
    rw [List.nil_append]
    cases sep with
    | nil => exact pyContains_nil_sep b
    | cons c cs =>
      rw [List.cons_append]
      simp only [pyContains]
      rw [show c :: (cs ++ b) = (c :: cs) ++ b from rfl, isPrefixOf_self_append]
      rfl
  | cons c cs ih =>
    have hstep : pyContains sep ((c :: cs) ++ sep ++ b)
        = (sep.isPrefixOf ((c :: cs) ++ sep ++ b) || pyContains sep (cs ++ sep ++ b)) := rfl
    rw [hstep, ih, Bool.or_true]

lemma pyContains_mono {x u s : List Char} (h : pyContains (x ++ u) s = true) :
    pyContains x s = true := by
  induction s with
  | nil =>
    simp only [pyContains, List.isEmpty_eq_true, List.append_eq_nil] at h ⊢
    exact h.1
  | cons c rest ih =>
    simp only [pyContains, Bool.or_eq_true] at h ⊢
    rcases h with h | h
    · exact Or.inl (isPrefixOf_of_append h)
    · exact Or.inr (ih h)

lemma pyContains_of_all_ne {hd : Char} {s' s : List Char} (h : ∀ c ∈ s, c ≠ hd) :
    pyContains (hd :: s') s = false := by
  induction s with
  | nil => rfl
  | cons c rest ih =>
    simp only [pyContains, Bool.or_eq_false_iff]
    exact ⟨isPrefixOf_cons_false (h c (by simp)),
      ih (fun d hd' => h d (by simp [hd']))⟩

/-! ### The split scan -/

lemma splitAux_acc (sep : List Char) :
    ∀ (n : Nat) (s acc : List Char),
      splitAux sep n s acc
        = (acc.reverse ++ (splitAux sep n s []).headI) :: (splitAux sep n s []).tail := by
  intro n
  induction n with
  | zero => intro s acc; cases s <;> simp [splitAux]
  | succ n ih =>
    intro s acc
    cases s with
    | nil => simp [splitAux]
    | cons c rest =>
      cases h : sep.isPrefixOf (c :: rest) with
      | true => simp [splitAux, h]
      | false =>
        simp only [splitAux, h, Bool.false_eq_true, if_false]
        rw [ih rest (c :: acc), ih rest [c]]
        simp

lemma splitAux_fuel {sep : List Char} (hsep : sep ≠ []) :
    ∀ (n m : Nat) (s acc : List Char), s.length ≤ n → s.length ≤ m →
      splitAux sep n s acc = splitAux sep m s acc := by
  have hlen : 1 ≤ sep.length := by
    cases sep with
    | nil => exact absurd rfl hsep
    | cons a as => simp
  intro n
  induction n with
  | zero =>
    intro m s acc hn _
    have hs : s = [] := List.eq_nil_of_length_eq_zero (Nat.le_zero.mp hn)
    subst hs
    cases m <;> simp [splitAux]
  | succ n ih =>
    intro m s acc hn hm
    cases s with
    | nil => cases m <;> simp [splitAux]
    | cons c rest =>
      cases m with
      | zero => simp at hm
      | succ m =>
        cases h : sep.isPrefixOf (c :: rest) with
        | true =>
          simp only [splitAux, h, if_true]
          congr 1
          apply ih
          · simp only [List.length_drop, List.length_cons]
            simp only [List.length_cons] at hn
            omega
          · simp only [List.length_drop, List.length_cons]
            simp only [List.length_cons] at hm
            omega
        | false =>
          simp only [splitAux, h, Bool.false_eq_true, if_false]
          apply ih
          · simp only [List.length_cons] at hn; omega
          · simp only [List.length_cons] at hm; omega

lemma pySplit_unfold {sep : List Char} (hsep : sep ≠ []) (s : List Char) :
    pySplit sep s = splitAux sep s.length s [] := by
  cases sep with
  | nil => exact absurd rfl hsep
  | cons c cs => rfl

lemma pySplit_eq_cons (sep s : List Char) :
    pySplit sep s = (pySplit sep s).headI :: (pySplit sep s).tail := by
  by_cases hsep : sep = []
  · subst hsep; rfl
  · rw [pySplit_unfold hsep]
    conv_lhs => rw [splitAux_acc sep s.length s []]
    rw [splitAux_acc sep s.length s []]
    simp

lemma pySplit_ne_nil (sep s : List Char) : pySplit sep s ≠ [] := by
  rw [pySplit_eq_cons]
  simp

lemma pySplit_hit {sep : List Char} (hsep : sep ≠ []) (t : List Char) :
    pySplit sep (sep ++ t) = [] :: pySplit sep t := by
  obtain ⟨c, cs, rfl⟩ : ∃ c cs, sep = c :: cs := by
    cases sep with
    | nil => exact absurd rfl hsep
    | cons c cs => exact ⟨c, cs, rfl⟩
  rw [pySplit_unfold hsep]
  have hl : ((c :: cs) ++ t).length = (cs ++ t).length + 1 := by simp
  rw [hl, show (c :: cs) ++ t = c :: (cs ++ t) from rfl]
  have hpre : (c :: cs).isPrefixOf (c :: (cs ++ t)) = true := isPrefixOf_self_append _ t
  simp only [splitAux, hpre, if_true, List.reverse_nil]
  congr 1
  have hd : (c :: (cs ++ t)).drop (c :: cs).length = t := by
    simp only [List.length_cons, List.drop_succ_cons]
    exact List.drop_left cs t
  rw [hd]
  rw [splitAux_fuel hsep (cs ++ t).length t.length t [] (by simp) (le_refl _)]
  rw [pySplit_unfold hsep]

lemma pySplit_skip {sep : List Char} {hd : Char} {s' : List Char} (a t : List Char)
    (hsep : sep = hd :: s') (ha : ∀ c ∈ a, c ≠ hd) :
    pySplit sep (a ++ t) = (a ++ (pySplit sep t).headI) :: (pySplit sep t).tail := by
  induction a with
  | nil =>
    rw [List.nil_append, List.nil_append]
    exact pySplit_eq_cons sep t
  | cons c a' ih =>
    have hsep' : sep ≠ [] := by rw [hsep]; simp
    rw [pySplit_unfold hsep']
    have hl : ((c :: a') ++ t).length = (a' ++ t).length + 1 := by simp
    rw [hl, show (c :: a') ++ t = c :: (a' ++ t) from rfl]
    have hpre : sep.isPrefixOf (c :: (a' ++ t)) = false := by
      rw [hsep]
      exact isPrefixOf_cons_false (ha c (by simp))
    simp only [splitAux, hpre, Bool.false_eq_true, if_false]
    rw [splitAux_acc sep (a' ++ t).length (a' ++ t) [c]]
    have hrec : splitAux sep (a' ++ t).length (a' ++ t) [] = pySplit sep (a' ++ t) :=
      (pySplit_unfold hsep' (a' ++ t)).symm
    rw [hrec, ih (fun d hd' => ha d (by simp [hd']))]
    simp

lemma splitAux_noOcc {sep : List Char} :
    ∀ (s : List Char) (n : Nat) (acc : List Char), pyContains sep s = false →
      splitAux sep n s acc = [acc.reverse ++ s] := by
  intro s
  induction s with
  | nil => intro n acc _; cases n <;> simp [splitAux]
  | cons c rest ih =>
    intro n acc h
    simp only [pyContains, Bool.or_eq_false_iff] at h
    cases n with
    | zero => simp [splitAux]
    | succ n =>
      simp only [splitAux, h.1, Bool.false_eq_true, if_false]
      rw [ih n (c :: acc) h.2]
      simp

lemma pySplit_noOcc {sep s : List Char} (h : pyContains sep s = false) :
    pySplit sep s = [s] := by
  have hsep : sep ≠ [] := by
    intro he
    rw [he, pyContains_nil_sep] at h
    exact Bool.true_eq_false.mp h
  rw [pySplit_unfold hsep, splitAux_noOcc s s.length [] h]
  rfl

lemma pySplit_three_bt {post : List Char} (h1 : post.head? ≠ some btick)
    (h2 : pyMarker.isPrefixOf (fenceMarker ++ post) = false) :
    pySplit pyMarker (fenceMarker ++ post)
      = (fenceMarker ++ (pySplit pyMarker post).headI) :: (pySplit pyMarker post).tail := by
  have hne : pyMarker ≠ [] := by simp [pyMarker]
  have hc1 : pyMarker.isPrefixOf (btick :: btick :: btick :: post) = false := h2
  have hc2 : pyMarker.isPrefixOf (btick :: btick :: post) = false := by
    cases post with
    | nil => rfl
    | cons d ds =>
      have hdne : d ≠ btick := by
        intro he
        exact h1 (by simp [he])
      simp only [pyMarker, cons_isPrefixOf_cons, beq_self_eq_true, Bool.true_and]
      rw [show (btick == d) = false from beq_eq_false_iff_ne.mpr (fun e => hdne e.symm),
        Bool.false_and]
  have hc3 : pyMarker.isPrefixOf (btick :: post) = false := by
    cases post with
    | nil => rfl
    | cons d ds =>
      have hdne : d ≠ btick := by
        intro he
        exact h1 (by simp [he])
      simp only [pyMarker, cons_isPrefixOf_cons, beq_self_eq_true, Bool.true_and]
      rw [show (btick == d) = false from beq_eq_false_iff_ne.mpr (fun e => hdne e.symm),
        Bool.false_and]
  rw [pySplit_unfold hne]
  have hl : (fenceMarker ++ post).length = post.length + 1 + 1 + 1 := by
    simp [fenceMarker]
  rw [hl, show fenceMarker ++ post = btick :: btick :: btick :: post from rfl]
  simp only [splitAux, hc1, hc2, hc3, Bool.false_eq_true, if_false]
  rw [splitAux_acc pyMarker post.length post [btick, btick, btick]]
  rw [← pySplit_unfold hne]
  rfl

/-! ### Behavior of the response extractor -/

lemma pyMarker_eq : pyMarker = fenceMarker ++ ['p', 'y', 't', 'h', 'o', 'n'] := rfl

lemma pyMarker_cons : pyMarker = btick :: [btick, btick, 'p', 'y', 't', 'h', 'o', 'n'] := rfl

lemma fenceMarker_cons : fenceMarker = btick :: [btick, btick] := rfl

lemma pyContains_py_of_fence_false {s : List Char}
    (h : pyContains fenceMarker s = false) : pyContains pyMarker s = false := by
  cases hc : pyContains pyMarker s with
  | false => rfl
  | true =>
    rw [pyMarker_eq] at hc
    rw [pyContains_mono hc] at h
    exact absurd h (by simp)

lemma extract_noFence {s : List Char} (h : pyContains fenceMarker s = false) :
    extract_code_from_response s = pyStrip s := by
  have hpy : pyContains pyMarker s = false := pyContains_py_of_fence_false h
  simp only [extract_code_from_response, hpy, Bool.false_eq_true, if_false, h]

lemma extract_fenced (pre body post : List Char)
    (hpre : ∀ c ∈ pre, c ≠ btick) (hbody : ∀ c ∈ body, c ≠ btick)
    (hpost : post.head? ≠ some btick) :
    extract_code_from_response (pre ++ pyMarker ++ body ++ fenceMarker ++ post)
      = pyStrip body := by
  have hrest : pre ++ pyMarker ++ body ++ fenceMarker ++ post
      = pre ++ (pyMarker ++ (body ++ (fenceMarker ++ post))) := by
    simp [List.append_assoc]
  have hcont : pyContains pyMarker
      (pre ++ (pyMarker ++ (body ++ (fenceMarker ++ post)))) = true := by
    have := pyContains_occ pyMarker pre (body ++ (fenceMarker ++ post))
    rwa [List.append_assoc] at this
  have hbodyFence : pyContains fenceMarker body = false :=
    @pyContains_of_all_ne btick [btick, btick] body hbody
  have hheadI : ((pySplit pyMarker (fenceMarker ++ post)).headI = [] ∧
      (pySplit fenceMarker body).getD 0 [] = body) ∨
      (∃ H, (pySplit pyMarker (fenceMarker ++ post)).headI = fenceMarker ++ H) := by
    cases hPy : pyMarker.isPrefixOf (fenceMarker ++ post) with
    | true =>
      obtain ⟨u, hu⟩ := eq_append_of_isPrefixOf hPy
      left
      constructor
      · rw [hu, pySplit_hit (by simp [pyMarker]) u]
        rfl
      · rw [pySplit_noOcc hbodyFence]
        rfl
    | false =>
      right
      exact ⟨(pySplit pyMarker post).headI, by rw [pySplit_three_bt hpost hPy]; rfl⟩
  have hparts : pySplit pyMarker (pre ++ (pyMarker ++ (body ++ (fenceMarker ++ post))))
      = pre :: ((body ++ (pySplit pyMarker (fenceMarker ++ post)).headI)
          :: (pySplit pyMarker (fenceMarker ++ post)).tail) := by
    rw [pySplit_skip pre (pyMarker ++ (body ++ (fenceMarker ++ post))) pyMarker_cons hpre]
    rw [pySplit_hit (by simp [pyMarker]) (body ++ (fenceMarker ++ post))]
    rw [pySplit_skip body (fenceMarker ++ post) pyMarker_cons hbody]
    simp
  rw [hrest]
  simp only [extract_code_from_response, hcont, if_true, hparts]
  have hlen : 1 < (pre :: ((body ++ (pySplit pyMarker (fenceMarker ++ post)).headI)
      :: (pySplit pyMarker (fenceMarker ++ post)).tail)).length := by
    simp
  rw [if_pos hlen]
  have hgetD : (pre :: ((body ++ (pySplit pyMarker (fenceMarker ++ post)).headI)
      :: (pySplit pyMarker (fenceMarker ++ post)).tail)).getD 1 []
      = body ++ (pySplit pyMarker (fenceMarker ++ post)).headI := rfl
  rw [hgetD]
  rcases hheadI with ⟨hI, hG⟩ | ⟨H, hI⟩
  · rw [hI, List.append_nil, hG]
  · rw [hI]
    rw [pySplit_skip body (fenceMarker ++ H) fenceMarker_cons hbody]
    rw [pySplit_hit (by simp [fenceMarker]) H]
    simp

lemma extract_unclosed (pre rest : List Char)
    (hpre : ∀ c ∈ pre, c ≠ btick) (hrest : pyContains fenceMarker rest = false) :
    extract_code_from_response (pre ++ pyMarker ++ rest) = pyStrip rest := by
  have hassoc : pre ++ pyMarker ++ rest = pre ++ (pyMarker ++ rest) := by
    rw [List.append_assoc]
  have hcont : pyContains pyMarker (pre ++ (pyMarker ++ rest)) = true := by
    have := pyContains_occ pyMarker pre rest
    rwa [List.append_assoc] at this
  have hrestPy : pyContains pyMarker rest = false := pyContains_py_of_fence_false hrest
  have hparts : pySplit pyMarker (pre ++ (pyMarker ++ rest)) = pre :: [rest] := by
    rw [pySplit_skip pre (pyMarker ++ rest) pyMarker_cons hpre]
    rw [pySplit_hit (by simp [pyMarker]) rest]
    rw [pySplit_noOcc hrestPy]
    simp
  rw [hassoc]
  simp only [extract_code_from_response, hcont, if_true, hparts]
  have hlen : 1 < ([pre, rest] : List (List Char)).length := by simp
  rw [if_pos hlen]
  have hgetD : ([pre, rest] : List (List Char)).getD 1 [] = rest := rfl
  rw [hgetD, pySplit_noOcc hrest]
  rfl

/-! ### Behavior of the path mapper -/

lemma takeWhile_append_stop {p : Char → Bool} {c0 : Char} (h : p c0 = false)
    (a z : List Char) : (a ++ c0 :: z).takeWhile p = a.takeWhile p := by
  induction a with
  | nil => simp [List.takeWhile, h]
  | cons c a' ih =>
    rw [List.cons_append]
    cases hc : p c with
    | true => simp [List.takeWhile_cons, hc, ih]
    | false => simp [List.takeWhile_cons, hc]

lemma osBasename_append_slash (x y : List Char) :
    osBasename (x ++ '/' :: y) = osBasename y := by
  unfold osBasename
  rw [show (x ++ '/' :: y).reverse = y.reverse ++ '/' :: x.reverse by simp]
  rw [takeWhile_append_stop (by simp) y.reverse x.reverse]

lemma osBasename_noSlash {f : List Char} (h : ∀ c ∈ f, c ≠ '/') :
    osBasename f = f := by
  unfold osBasename
  rw [List.takeWhile_eq_self_iff.mpr (by
    intro x hx
    simp only [Bool.not_eq_true']
    exact beq_eq_false_iff_ne.mpr (h x (List.mem_reverse.mp hx)))]
  exact List.reverse_reverse f

lemma srcRoot_split : srcRoot = ['s', 'r', 'c'] ++ '/' :: [] := rfl

lemma osBasename_drop_src {t : List Char} :
    osBasename (srcRoot ++ t) = osBasename t := by
  rw [show srcRoot ++ t = ['s', 'r', 'c'] ++ '/' :: t from rfl]
  exact osBasename_append_slash ['s', 'r', 'c'] t

lemma splitext_concat (f : List Char) :
    (osSplitext f).1 ++ (osSplitext f).2 = f := by
  unfold osSplitext
  by_cases h1 : (f.reverse.takeWhile fun c => !(c == '.')).length == f.length
  · simp [h1]
  · simp only [h1, Bool.false_eq_true, if_false]
    by_cases h2 : (f.take (f.length - (f.reverse.takeWhile fun c => !(c == '.')).length - 1)).all
        (fun c => c == '.')
    · simp [h2]
    · simp only [h2, Bool.false_eq_true, if_false]
      exact List.take_append_drop _ f

lemma head?_of_take {l : List Char} {n : Nat} {c : Char}
    (h : (l.take n).head? = some c) : l.head? = some c := by
  rw [List.head?_take] at h
  by_cases hn : n = 0
  · rw [hn] at h; simp at h
  · rwa [if_neg hn] at h

lemma head?_of_append_eq {z w l : List Char} {c : Char} (h : l = z ++ w)
    (hz : z.head? = some c) : l.head? = some c := by
  cases z with
  | nil => simp at hz
  | cons a as => rw [h]; simpa using hz

lemma osPathSplit_fst_head {rel : List Char} {c : Char}
    (h : (osPathSplit rel).1.head? = some c) : rel.head? = some c := by
  unfold osPathSplit at h
  simp only at h
  by_cases hcond : (rel.take (rel.length - (osBasename rel).length)).isEmpty
      || (rel.take (rel.length - (osBasename rel).length)).all (fun c => c == '/')
  · rw [if_pos hcond] at h
    exact head?_of_take h
  · rw [if_neg hcond] at h
    set head := rel.take (rel.length - (osBasename rel).length) with hhead
    have hdecomp : head = ((head.reverse.dropWhile fun c => c == '/').reverse)
        ++ (head.reverse.takeWhile fun c => c == '/').reverse := by
      rw [← List.reverse_append, List.takeWhile_append_dropWhile, List.reverse_reverse]
    exact head?_of_take (head?_of_append_eq hdecomp h)

lemma mapRel_unfold (rel : List Char) :
    mapRel rel = joinStep (joinStep testsRoot (osPathSplit rel).1)
      (testMarker ++ (osSplitext (osBasename rel)).1 ++ (osSplitext (osBasename rel)).2) := rfl

lemma to_test_path_unfold (p : List Char) :
    to_test_path p = mapRel (if srcRoot.isPrefixOf p then p.drop srcRoot.length else p) := rfl

lemma joinStep_tests {d : List Char} (hd : d.head? ≠ some '/') :
    joinStep testsRoot d = "tests/".data ++ d := by
  unfold joinStep
  have h1 : (['/'] : List Char).isPrefixOf d = false := by
    cases d with
    | nil => rfl
    | cons c ds =>
      exact isPrefixOf_cons_false (fun he => hd (by simp [he]))
  simp only [h1, Bool.false_eq_true, if_false]
  rw [if_neg (by simp [testsRoot])]
  rfl

lemma joinStep_cases (x tf : List Char) (htf : tf.head? ≠ some '/') :
    joinStep x tf = x ++ tf ∨ joinStep x tf = x ++ '/' :: tf := by
  unfold joinStep
  have h1 : (['/'] : List Char).isPrefixOf tf = false := by
    cases tf with
    | nil => rfl
    | cons c ds => exact isPrefixOf_cons_false (fun he => htf (by simp [he]))
  simp only [h1, Bool.false_eq_true, if_false]
  by_cases h2 : x = [] ∨ x.getLast? = some '/'
  · exact Or.inl (if_pos h2)
  · exact Or.inr (if_neg h2)

lemma osBasename_chars (p : List Char) : ∀ c ∈ osBasename p, c ≠ '/' := by
  intro c hc
  unfold osBasename at hc
  rw [List.mem_reverse] at hc
  have := List.mem_takeWhile_imp hc
  simpa using this

lemma testfn_head (u : List Char) : (testMarker ++ u).head? = some 't' := rfl

lemma testfn_noSlash {f : List Char} (h : ∀ c ∈ f, c ≠ '/') :
    ∀ c ∈ (testMarker ++ (osSplitext f).1) ++ (osSplitext f).2, c ≠ '/' := by
  intro c hc
  rw [List.append_assoc, List.mem_append] at hc
  rcases hc with hc | hc
  · revert hc
    revert c
    decide
  · rw [← splitext_concat f] at h
    exact h c hc

lemma osBasename_joinStep (x tf : List Char) (htf0 : tf.head? ≠ some '/')
    (htf : ∀ c ∈ tf, c ≠ '/') : osBasename (joinStep x tf) = tf := by
  unfold joinStep
  have h1 : (['/'] : List Char).isPrefixOf tf = false := by
    cases tf with
    | nil => rfl
    | cons c ds => exact isPrefixOf_cons_false (fun he => htf0 (by simp [he]))
  simp only [h1, Bool.false_eq_true, if_false]
  by_cases h2 : x = [] ∨ x.getLast? = some '/'
  · rw [if_pos h2]
    rcases h2 with h2 | h2
    · rw [h2, List.nil_append]
      exact osBasename_noSlash htf
    · obtain ⟨ys, hys⟩ := List.getLast?_eq_some_iff.mp h2
      rw [hys, show (ys ++ ['/']) ++ tf = ys ++ '/' :: tf by simp]
      rw [osBasename_append_slash]
      exact osBasename_noSlash htf
  · rw [if_neg h2, osBasename_append_slash]
    exact osBasename_noSlash htf

lemma mapRel_basename (rel : List Char) :
    osBasename (mapRel rel)
      = (testMarker ++ (osSplitext (osBasename rel)).1) ++ (osSplitext (osBasename rel)).2 := by
  rw [mapRel_unfold, List.append_assoc]
  refine osBasename_joinStep _ _ ?_ ?_
  · rw [testfn_head]
    simp
  · rw [← List.append_assoc]
    exact testfn_noSlash (osBasename_chars rel)

lemma osBasename_relOf (p : List Char) :
    osBasename (if srcRoot.isPrefixOf p then p.drop srcRoot.length else p) = osBasename p := by
  by_cases h : srcRoot.isPrefixOf p = true
  · rw [if_pos h]
    obtain ⟨t, ht⟩ := eq_append_of_isPrefixOf h
    rw [ht, List.drop_left, osBasename_drop_src]
  · rw [if_neg h]

lemma to_test_path_basename (p : List Char) :
    osBasename (to_test_path p)
      = (testMarker ++ (osSplitext (osBasename p)).1) ++ (osSplitext (osBasename p)).2 := by
  rw [to_test_path_unfold, mapRel_basename, osBasename_relOf]

lemma tests_isPrefixOf_mapRel {rel : List Char} (h : rel.head? ≠ some '/') :
    "tests/".data.isPrefixOf (mapRel rel) = true := by
  have hd : (osPathSplit rel).1.head? ≠ some '/' :=
    fun he => h (osPathSplit_fst_head he)
  rw [mapRel_unfold, joinStep_tests hd]
  rcases joinStep_cases ("tests/".data ++ (osPathSplit rel).1)
      (testMarker ++ (osSplitext (osBasename rel)).1 ++ (osSplitext (osBasename rel)).2)
      (by rw [List.append_assoc, testfn_head]; simp) with hc | hc
  · rw [hc, List.append_assoc]
    exact isPrefixOf_self_append _ _
  · rw [hc, List.append_assoc]
    exact isPrefixOf_self_append _ _

lemma relOf_head {p : List Char} (h1 : p.head? ≠ some '/')
    (h2 : "src//".data.isPrefixOf p = false) :
    (if srcRoot.isPrefixOf p then p.drop srcRoot.length else p).head? ≠ some '/' := by
  by_cases h : srcRoot.isPrefixOf p = true
  · rw [if_pos h]
    obtain ⟨t, ht⟩ := eq_append_of_isPrefixOf h
    rw [ht, List.drop_left]
    intro he
    cases t with
    | nil => simp at he
    | cons c ts =>
      simp only [List.head?_cons, Option.some.injEq] at he
      rw [ht, he, show srcRoot ++ '/' :: ts = ("src//".data) ++ ts from rfl] at h2
      rw [isPrefixOf_self_append] at h2
      exact Bool.true_eq_false.mp h2
  · rwa [if_neg h]

lemma tests_isPrefixOf_to_test_path {p : List Char} (h1 : p.head? ≠ some '/')
    (h2 : "src//".data.isPrefixOf p = false) :
    "tests/".data.isPrefixOf (to_test_path p) = true := by
  rw [to_test_path_unfold]
  exact tests_isPrefixOf_mapRel (relOf_head h1 h2)

/-! ### Behavior of discovery and `should_skip` -/

lemma bor_elim {a b : Bool} (h : (a || b) = true) : a = true ∨ b = true := by
  rcases a <;> rcases b <;> simp_all

lemma bnot_true {b : Bool} (h : (!b) = true) : b = false := by
  rcases b <;> simp_all

lemma slash_cons : (['/'] : List Char) = '/' :: [] := rfl

lemma pySplit_slash_tests (t : List Char) :
    pySplit ['/'] ("tests/".data ++ t) = "tests".data :: pySplit ['/'] t := by
  rw [show ("tests/".data) ++ t = "tests".data ++ ('/' :: t) from rfl]
  rw [pySplit_skip ("tests".data) ('/' :: t) slash_cons (by decide)]
  rw [show ('/' : Char) :: t = ['/'] ++ t from rfl]
  rw [pySplit_hit (by simp) t]
  simp

lemma should_skip_eq_true_of_names {path : List Char}
    (h : (pySplit ['/'] path).any (fun seg => excludedNames.contains seg) = true) :
    should_skip path = true := by
  simp only [should_skip]
  by_cases hA : (pySplit ['/'] path).any (fun seg => (['.'] : List Char).isPrefixOf seg) = true
  · rw [if_pos hA]
  · rw [if_neg hA, if_pos h]

lemma should_skip_eq_true_of_hidden {path : List Char}
    (h : (pySplit ['/'] path).any (fun seg => (['.'] : List Char).isPrefixOf seg) = true) :
    should_skip path = true := by
  simp only [should_skip]
  rw [if_pos h]

lemma should_skip_eq_true_of_testname {path : List Char}
    (h : testMarker.isPrefixOf (osBasename path) = true) :
    should_skip path = true := by
  simp only [should_skip]
  by_cases hA : (pySplit ['/'] path).any (fun seg => (['.'] : List Char).isPrefixOf seg) = true
  · rw [if_pos hA]
  · rw [if_neg hA]
    by_cases hB : (pySplit ['/'] path).any (fun seg => excludedNames.contains seg) = true
    · rw [if_pos hB]
    · rw [if_neg hB, if_pos h]

lemma should_skip_tests_prefixed (t : List Char) :
    should_skip ("tests/".data ++ t) = true := by
  apply should_skip_eq_true_of_names
  rw [pySplit_slash_tests]
  simp only [List.any_cons]
  rw [show excludedNames.contains ("tests".data) = true from by decide]
  rfl

lemma not_skipped_of_discovered {p : List Char} {isFile : List Char → Bool}
    {cands : List (List Char)} (h : p ∈ discoveredFiles isFile cands) :
    should_skip p = false := by
  unfold discoveredFiles at h
  rw [List.mem_filter] at h
  have h2 := h.2
  rw [Bool.and_eq_true, Bool.and_eq_true] at h2
  exact bnot_true h2.2

lemma write_ne_discovered {w f : List Char} (hw : "tests/".data.isPrefixOf w = true)
    (hf : should_skip f = false) : w ≠ f := by
  intro he
  obtain ⟨t, ht⟩ := eq_append_of_isPrefixOf hw
  rw [he] at ht
  rw [ht, should_skip_tests_prefixed] at hf
  exact Bool.true_eq_false.mp hf

/-! ### The lexicographic order on paths and the sort model -/

lemma listLt_cons (a b : Char) (as bs : List Char) :
    listLt (a :: as) (b :: bs) = (decide (a < b) || (a == b && listLt as bs)) := rfl

lemma listLt_irrefl (a : List Char) : listLt a a = false := by
  induction a with
  | nil => rfl
  | cons c cs ih =>
    rw [listLt_cons, decide_eq_false (lt_irrefl c), ih]
    simp

lemma listLt_asymm : ∀ {a b : List Char}, listLt a b = true → listLt b a = false := by
  intro a
  induction a with
  | nil =>
    intro b h
    cases b with
    | nil => exact absurd h (by simp [listLt])
    | cons c cs => rfl
  | cons c cs ih =>
    intro b h
    cases b with
    | nil => exact absurd h (by simp [listLt])
    | cons d ds =>
      rw [listLt_cons] at h
      rw [listLt_cons]
      rcases bor_elim h with h1 | h1
      · have hcd : c < d := of_decide_eq_true h1
        rw [decide_eq_false (lt_asymm hcd),
          show (d == c) = false from beq_eq_false_iff_ne.mpr (ne_of_gt hcd)]
        simp
      · rw [Bool.and_eq_true] at h1
        have hcd : c = d := beq_iff_eq.mp h1.1
        subst hcd
        rw [decide_eq_false (lt_irrefl c), beq_self_eq_true, ih h1.2]
        simp

lemma listLt_connex : ∀ {a b : List Char}, listLt a b = false → listLt b a = false →
    a = b := by
  intro a
  induction a with
  | nil =>
    intro b h1 _
    cases b with
    | nil => rfl
    | cons c cs => exact absurd h1 (by simp [listLt])
  | cons c cs ih =>
    intro b h1 h2
    cases b with
    | nil => exact absurd h2 (by simp [listLt])
    | cons d ds =>
      rw [listLt_cons, Bool.or_eq_false_iff] at h1 h2
      have hcd : c = d :=
        le_antisymm (not_lt.mp (of_decide_eq_false h2.1)) (not_lt.mp (of_decide_eq_false h1.1))
      subst hcd
      rw [beq_self_eq_true, Bool.true_and] at h1 h2
      rw [ih h1.2 h2.2]

lemma listLt_trans : ∀ {a b c : List Char}, listLt a b = true → listLt b c = true →
    listLt a c = true := by
  intro a
  induction a with
  | nil =>
    intro b c h1 h2
    cases b with
    | nil => exact absurd h1 (by simp [listLt])
    | cons d ds =>
      cases c with
      | nil => exact absurd h2 (by simp [listLt])
      | cons e es => rfl
  | cons x xs ih =>
    intro b c h1 h2
    cases b with
    | nil => exact absurd h1 (by simp [listLt])
    | cons y ys =>
      cases c with
      | nil => exact absurd h2 (by simp [listLt])
      | cons z zs =>
        rw [listLt_cons] at h1 h2
        rw [listLt_cons]
        rcases bor_elim h1 with ha | ha <;>
          rcases bor_elim h2 with hb | hb
        · rw [decide_eq_true (lt_trans (of_decide_eq_true ha) (of_decide_eq_true hb))]
          simp
        · rw [Bool.and_eq_true] at hb
          rw [decide_eq_true (beq_iff_eq.mp hb.1 ▸ of_decide_eq_true ha)]
          simp
        · rw [Bool.and_eq_true] at ha
          rw [decide_eq_true (beq_iff_eq.mp ha.1 ▸ of_decide_eq_true hb)]
          simp
        · rw [Bool.and_eq_true] at ha hb
          have hxz : x = z := (beq_iff_eq.mp ha.1).trans (beq_iff_eq.mp hb.1)
          rw [beq_iff_eq.mpr hxz, ih ha.2 hb.2]
          simp

lemma lexLe_total (a b : List Char) : lexLe a b = true ∨ lexLe b a = true := by
  unfold lexLe
  cases h : listLt b a with
  | false => left; rfl
  | true => right; rw [listLt_asymm h]; rfl

lemma lexLe_trans {a b c : List Char} (h1 : lexLe a b = true) (h2 : lexLe b c = true) :
    lexLe a c = true := by
  unfold lexLe at h1 h2 ⊢
  rw [Bool.not_eq_true'] at h1 h2
  rw [Bool.not_eq_true']
  cases hca : listLt c a with
  | false => rfl
  | true =>
    cases hab : listLt a b with
    | true => rw [listLt_trans hca hab] at h2; exact h2
    | false =>
      rw [listLt_connex hab h1] at hca
      rw [hca] at h2
      exact h2

lemma insertLe_perm (a : List Char) (l : List (List Char)) :
    (insertLe a l).Perm (a :: l) := by
  induction l with
  | nil => exact List.Perm.refl _
  | cons b bs ih =>
    unfold insertLe
    by_cases h : lexLe a b = true
    · rw [if_pos h]
    · rw [if_neg h]
      exact (List.Perm.cons b ih).trans (List.Perm.swap a b bs)

lemma sortFiles_perm (l : List (List Char)) : (sortFiles l).Perm l := by
  induction l with
  | nil => exact List.Perm.refl _
  | cons a as ih =>
    unfold sortFiles
    exact (insertLe_perm a (sortFiles as)).trans (List.Perm.cons a ih)

lemma sorted_insertLe {a : List Char} {l : List (List Char)}
    (h : l.Pairwise (fun x y => lexLe x y = true)) :
    (insertLe a l).Pairwise (fun x y => lexLe x y = true) := by
  induction l with
  | nil => simp [insertLe]
  | cons b bs ih =>
    rw [List.pairwise_cons] at h
    unfold insertLe
    by_cases hab : lexLe a b = true
    · rw [if_pos hab]
      refine List.Pairwise.cons ?_ (List.Pairwise.cons h.1 h.2)
      intro x hx
      rcases List.mem_cons.mp hx with hx | hx
      · rw [hx]; exact hab
      · exact lexLe_trans hab (h.1 x hx)
    · rw [if_neg hab]
      refine List.Pairwise.cons ?_ (ih h.2)
      intro x hx
      rcases List.mem_cons.mp ((insertLe_perm a bs).mem_iff.mp hx) with hx | hx
      · rw [hx]
        rcases lexLe_total a b with ht | ht
        · exact absurd ht hab
        · exact ht
      · exact h.1 x hx

lemma sortFiles_sorted (l : List (List Char)) :
    (sortFiles l).Pairwise (fun x y => lexLe x y = true) := by
  induction l with
  | nil => simp [sortFiles]
  | cons a as ih => exact sorted_insertLe ih

/-! ### Behavior of the orchestration loop -/

lemma foldl_stepFile (env : Env) :
    ∀ (files : List (List Char)) (acc : RunResult),
      ((files.foldl (stepFile env) acc).successCount
          = acc.successCount + files.countP (fileOk env))
      ∧ ((files.foldl (stepFile env) acc).errorCount
          = acc.errorCount + files.countP (fun f => !(fileOk env f)))
      ∧ ((files.foldl (stepFile env) acc).writes
          = acc.writes ++ files.filterMap (writeOf env))
      ∧ ((files.foldl (stepFile env) acc).exitCode = acc.exitCode) := by
  intro files
  induction files with
  | nil => intro acc; simp
  | cons f fs ih =>
    intro acc
    obtain ⟨i1, i2, i3, i4⟩ := ih (stepFile env acc f)
    rw [List.foldl_cons]
    refine ⟨?_, ?_, ?_, ?_⟩
    · rw [i1, List.countP_cons]
      cases hp : processFile env f with
      | ok w => simp [stepFile, hp, fileOk]; omega
      | error e => simp [stepFile, hp, fileOk]
    · rw [i2, List.countP_cons]
      cases hp : processFile env f with
      | ok w => simp [stepFile, hp, fileOk]
      | error e => simp [stepFile, hp, fileOk]; omega
    · rw [i3, List.filterMap_cons]
      cases hp : processFile env f with
      | ok w => simp [stepFile, hp, writeOf]
      | error e => simp [stepFile, hp, writeOf]
    · rw [i4]
      cases hp : processFile env f with
      | ok w => simp [stepFile, hp]
      | error e => simp [stepFile, hp]

lemma mainRun_empty (env : Env) :
    mainRun env [] = { successCount := 0, errorCount := 0, writes := [], exitCode := 0 } := rfl

lemma mainRun_successCount (env : Env) {files : List (List Char)} (h : files ≠ []) :
    (mainRun env files).successCount = (sortFiles files).countP (fileOk env) := by
  unfold mainRun
  rw [if_neg (by simp [List.isEmpty_iff, h])]
  have hc := (foldl_stepFile env (sortFiles files) ⟨0, 0, [], 0⟩).1
  simpa using hc

lemma mainRun_errorCount (env : Env) {files : List (List Char)} (h : files ≠ []) :
    (mainRun env files).errorCount
      = (sortFiles files).countP (fun f => !(fileOk env f)) := by
  unfold mainRun
  rw [if_neg (by simp [List.isEmpty_iff, h])]
  have hc := (foldl_stepFile env (sortFiles files) ⟨0, 0, [], 0⟩).2.1
  simpa using hc

lemma mainRun_writes (env : Env) {files : List (List Char)} (h : files ≠ []) :
    (mainRun env files).writes = (sortFiles files).filterMap (writeOf env) := by
  unfold mainRun
  rw [if_neg (by simp [List.isEmpty_iff, h])]
  have hc := (foldl_stepFile env (sortFiles files) ⟨0, 0, [], 0⟩).2.2.1
  simpa using hc

lemma mainRun_exitCode (env : Env) {files : List (List Char)} (h : files ≠ []) :
    (mainRun env files).exitCode
      = if 0 < (sortFiles files).countP (fun f => !(fileOk env f)) then 1 else 0 := by
  unfold mainRun
  rw [if_neg (by simp [List.isEmpty_iff, h])]
  have hc := (foldl_stepFile env (sortFiles files) ⟨0, 0, [], 0⟩).2.1
  show (if 0 < ((sortFiles files).foldl (stepFile env) ⟨0, 0, [], 0⟩).errorCount
      then 1 else 0) = _
  rw [hc]
  simp

lemma applyWrites_last :
    ∀ (ws : List (List Char × List Char)) (fs : List Char → Option (List Char))
      (p c : List Char), applyWrites fs (ws ++ [(p, c)]) p = some c := by
  intro ws
  induction ws with
  | nil => intro fs p c; simp [applyWrites]
  | cons w ws ih =>
    intro fs p c
    rw [List.cons_append]
    show applyWrites (fun q => if q = w.1 then some w.2 else fs q) (ws ++ [(p, c)]) p
        = some c
    exact ih _ p c

lemma processFile_ok_fst {env : Env} {f : List Char} {v : List Char × List Char}
    (h : processFile env f = .ok v) : v.1 = to_test_path f := by
  unfold processFile at h
  cases hg : env.gen f with
  | error e => rw [hg] at h; simp [Bind.bind, Except.bind] at h
  | ok content =>
    rw [hg] at h
    simp only [Bind.bind, Except.bind] at h
    cases hwri : env.write (to_test_path f) (extract_code_from_response content) with
    | error e => rw [hwri] at h; simp at h
    | ok u =>
      rw [hwri] at h
      simp only [pure, Except.pure, Except.ok.injEq] at h
      rw [← h]

/-- C3: `extract_code_from_response` is a total function of the response
string (totality holds by construction in this embedding — every branch
returns a value and no operation can fail).  On an input with no fence
marker at all it returns the stripped whole input; on the documented
example with a language-tagged fenced block it returns exactly the
stripped interior; on the empty string it returns the empty string; and
in general, for any input of the shape
`pre ++ "```python" ++ body ++ "```" ++ post` in which `pre` and `body`
contain no backtick and `post` does not begin with one, it returns the
stripped `body`. -/
theorem extract_code_spec :
    (∀ s : List Char, pyContains fenceMarker s = false →
      extract_code_from_response s = pyStrip s)
    ∧ extract_code_from_response ("Here:\n```python\ndef test_x(): pass\n```".data)
        = "def test_x(): pass".data
    ∧ extract_code_from_response [] = []
    ∧ (∀ pre body post : List Char, (∀ c ∈ pre, c ≠ btick) → (∀ c ∈ body, c ≠ btick) →
        post.head? ≠ some btick →
        extract_code_from_response (pre ++ pyMarker ++ body ++ fenceMarker ++ post)
          = pyStrip body) :=
  ⟨fun _ h => extract_noFence h, by decide, by decide, extract_fenced⟩

/-- Witness for C3: the general fenced-block clause applied at a concrete
response. -/
theorem extract_code_spec_witness :
    extract_code_from_response ("ok:\n```python\nx = 1\n``` trailing".data)
      = "x = 1".data := by
  have h := extract_code_spec.2.2.2 ("ok:\n".data) ("\nx = 1\n".data) (" trailing".data)
    (by decide) (by decide) (by decide)
  have he : "ok:\n".data ++ pyMarker ++ "\nx = 1\n".data ++ fenceMarker ++ " trailing".data
      = "ok:\n```python\nx = 1\n``` trailing".data := by decide
  rw [he] at h
  rw [h]
  decide

/-- C9: on input that contains the `"```python"` marker but no closing
fence after it, `extract_code_from_response` returns the stripped
remainder of the text after the marker (it does not fall back to the
whole input). -/
theorem extract_unclosed_spec (pre rest : List Char) (hpre : ∀ c ∈ pre, c ≠ btick)
    (hrest : pyContains fenceMarker rest = false) :
    extract_code_from_response (pre ++ pyMarker ++ rest) = pyStrip rest :=
  extract_unclosed pre rest hpre hrest

/-- Witness for C9 at a concrete unclosed response. -/
theorem extract_unclosed_spec_witness :
    extract_code_from_response ("Intro:\n```python\nx = 1".data) = "x = 1".data := by
  have h := extract_unclosed_spec ("Intro:\n".data) ("\nx = 1".data) (by decide) (by decide)
  have he : "Intro:\n".data ++ pyMarker ++ "\nx = 1".data
      = "Intro:\n```python\nx = 1".data := by decide
  rw [he] at h
  rw [h]
  decide

/-- C10: the missing-credentials guard `not all([endpoint, api_key,
deployment])` of `main` is always false, because the three baked-in
literals are non-empty strings; the early-exit branch before discovery is
therefore unreachable. -/
theorem credentials_branch_unreachable : credentialsMissing = false := by decide

lemma countP_bool_sum (p : List Char → Bool) (l : List (List Char)) :
    l.countP p + l.countP (fun a => !(p a)) = l.length := by
  induction l with
  | nil => simp
  | cons a as ih =>
    rw [List.countP_cons, List.countP_cons]
    cases hp : p a with
    | true => simp only [hp, Bool.not_true, if_true, Bool.false_eq_true, if_false,
        List.length_cons]; omega
    | false => simp only [hp, Bool.not_false, if_true, Bool.false_eq_true, if_false,
        List.length_cons]; omega

/-- C1: the exit code of the post-initialization run is non-zero exactly
when at least one discovered file fails its per-file sequence under the
external-effect oracles; with an empty discovery the run exits `0` and
performs no writes. -/
theorem exit_code_spec (env : Env) (files : List (List Char)) :
    ((mainRun env files).exitCode ≠ 0 ↔ ∃ f ∈ files, fileOk env f = false)
    ∧ (files = [] →
        (mainRun env files).exitCode = 0 ∧ (mainRun env files).writes = []) := by
  constructor
  · cases hf : files with
    | nil =>
      rw [mainRun_empty]
      simp
    | cons a as =>
      rw [← hf]
      have hne : files ≠ [] := by rw [hf]; simp
      rw [mainRun_exitCode env hne]
      constructor
      · intro hx
        by_cases h0 : 0 < (sortFiles files).countP (fun f => !(fileOk env f))
        · obtain ⟨f, hfm, hfp⟩ := List.countP_pos_iff.mp h0
          exact ⟨f, (sortFiles_perm files).mem_iff.mp hfm, bnot_true hfp⟩
        · rw [if_neg h0] at hx
          exact absurd rfl hx
      · rintro ⟨f, hfm, hfo⟩
        have h0 : 0 < (sortFiles files).countP (fun f => !(fileOk env f)) :=
          List.countP_pos_iff.mpr
            ⟨f, (sortFiles_perm files).mem_iff.mpr hfm, by rw [hfo]; rfl⟩
        rw [if_pos h0]
        simp
  · intro he
    subst he
    rw [mainRun_empty]
    exact ⟨rfl, rfl⟩

/-- Witness for C1: the empty-discovery clause at a concrete environment,
and the non-zero-exit clause refuted at a run whose single file
succeeds. -/
theorem exit_code_spec_witness :
    ((mainRun envOk []).exitCode = 0 ∧ (mainRun envOk []).writes = [])
    ∧ (mainRun envOk ["a.py".data]).exitCode = 0 := by
  refine ⟨(exit_code_spec envOk []).2 rfl, ?_⟩
  by_cases hx : (mainRun envOk ["a.py".data]).exitCode = 0
  · exact hx
  · obtain ⟨f, hfm, hfo⟩ := (exit_code_spec envOk ["a.py".data]).1.mp hx
    rw [List.mem_singleton] at hfm
    subst hfm
    exact absurd hfo (by decide)

/-- C2: every per-file exception is contained — each discovered file is
counted exactly once as a success or a failure (so one bad file never
aborts the batch), and in end-to-end scenario 3, with one failing and one
succeeding file, the run reports one success, one failure, and exits
`1`. -/
theorem failure_isolation_spec :
    (∀ (env : Env) (files : List (List Char)), files ≠ [] →
      (mainRun env files).successCount = files.countP (fileOk env)
      ∧ (mainRun env files).errorCount = files.countP (fun f => !(fileOk env f))
      ∧ (mainRun env files).successCount + (mainRun env files).errorCount
          = files.length)
    ∧ ((mainRun envOneBad ["good.py".data, "bad.py".data]).successCount = 1
      ∧ (mainRun envOneBad ["good.py".data, "bad.py".data]).errorCount = 1
      ∧ (mainRun envOneBad ["good.py".data, "bad.py".data]).exitCode = 1) := by
  constructor
  · intro env files hne
    have h1 : (mainRun env files).successCount = files.countP (fileOk env) := by
      rw [mainRun_successCount env hne]
      exact (sortFiles_perm files).countP_eq (fileOk env)
    have h2 : (mainRun env files).errorCount
        = files.countP (fun f => !(fileOk env f)) := by
      rw [mainRun_errorCount env hne]
      exact (sortFiles_perm files).countP_eq _
    refine ⟨h1, h2, ?_⟩
    rw [h1, h2]
    exact countP_bool_sum (fileOk env) files
  · exact ⟨by decide, by decide, by decide⟩

/-- Witness for C2: the counting clause applied to the concrete
two-file scenario. -/
theorem failure_isolation_spec_witness :
    (mainRun envOneBad ["good.py".data, "bad.py".data]).successCount
        = ["good.py".data, "bad.py".data].countP (fileOk envOneBad)
    ∧ (mainRun envOneBad ["good.py".data, "bad.py".data]).successCount
        + (mainRun envOneBad ["good.py".data, "bad.py".data]).errorCount = 2 :=
  ⟨(failure_isolation_spec.1 envOneBad _ (by decide)).1,
    (failure_isolation_spec.1 envOneBad _ (by decide)).2.2⟩

/-- C8: the orchestrator processes the discovered files in the unique
stable lexicographic-by-path order — the processed sequence is a
permutation of the discovered files sorted by the code-point order on
paths — so the performed writes are that order's image, and with
overwrite semantics the last write to a path wins, making any mapping
collision reproducible run-over-run. -/
theorem deterministic_order_spec (env : Env) (files : List (List Char)) :
    ((sortFiles files).Perm files
      ∧ (sortFiles files).Pairwise (fun a b => lexLe a b = true))
    ∧ (files ≠ [] →
        (mainRun env files).writes = (sortFiles files).filterMap (writeOf env))
    ∧ (∀ (fs : List Char → Option (List Char)) (ws : List (List Char × List Char))
        (p c : List Char), applyWrites fs (ws ++ [(p, c)]) p = some c) :=
  ⟨⟨sortFiles_perm files, sortFiles_sorted files⟩,
    fun h => mainRun_writes env h,
    fun fs ws p c => applyWrites_last ws fs p c⟩

/-- Witness for C8: the write-order clause at a concrete two-file run. -/
theorem deterministic_order_spec_witness :
    (mainRun envOk ["b.py".data, "a.py".data]).writes
      = (sortFiles ["b.py".data, "a.py".data]).filterMap (writeOf envOk) :=
  (deterministic_order_spec envOk ["b.py".data, "a.py".data]).2.1 (by decide)

/-- C4: for a relative source path beginning with the `src/` layout root
(and not degenerating into an absolute remainder), `to_test_path` strips
that prefix exactly once — the result is the unstripped mapping of the
remainder — and always begins with the fixed destination root `tests/`;
the documented example maps as specified; and a path not beginning with
the prefix is mapped as-is under the destination root. -/
theorem src_prefix_spec :
    (∀ rel : List Char, rel.head? ≠ some '/' →
      to_test_path (srcRoot ++ rel) = mapRel rel
      ∧ "tests/".data.isPrefixOf (to_test_path (srcRoot ++ rel)) = true)
    ∧ to_test_path ("src/pkg/mod.py".data) = "tests/pkg/test_mod.py".data
    ∧ (∀ q : List Char, srcRoot.isPrefixOf q = false → q.head? ≠ some '/' →
      to_test_path q = mapRel q
      ∧ "tests/".data.isPrefixOf (to_test_path q) = true) := by
  refine ⟨?_, by decide, ?_⟩
  · intro rel h
    have hstrip : to_test_path (srcRoot ++ rel) = mapRel rel := by
      rw [to_test_path_unfold, if_pos (isPrefixOf_self_append srcRoot rel),
        List.drop_left]
    exact ⟨hstrip, by rw [hstrip]; exact tests_isPrefixOf_mapRel h⟩
  · intro q hq h
    have hid : to_test_path q = mapRel q := by
      rw [to_test_path_unfold, if_neg (by rw [hq]; exact Bool.false_ne_true)]
    exact ⟨hid, by rw [hid]; exact tests_isPrefixOf_mapRel h⟩

/-- Witness for C4: the stripping clause at the documented example
path. -/
theorem src_prefix_spec_witness :
    to_test_path (srcRoot ++ "pkg/mod.py".data) = mapRel ("pkg/mod.py".data)
    ∧ "tests/".data.isPrefixOf (to_test_path (srcRoot ++ "pkg/mod.py".data)) = true :=
  src_prefix_spec.1 ("pkg/mod.py".data) (by decide)

/-- C5: for every path whose filename portion is slash-free, the basename
of the mapped test path is `test_` followed by that filename (for a
filename `name.ext` this is `test_name.ext`, since the stem/extension
split recombines to the filename); and the mapping is a deterministic
pure function — repeated application to the same input yields the same
output, which in this embedding holds by construction. -/
theorem mapped_basename_spec :
    (∀ dir f : List Char, (∀ c ∈ f, c ≠ '/') →
      osBasename (to_test_path (dir ++ '/' :: f)) = testMarker ++ f)
    ∧ (∀ p : List Char, to_test_path p = to_test_path p) := by
  constructor
  · intro dir f hf
    rw [to_test_path_basename, osBasename_append_slash, osBasename_noSlash hf,
      List.append_assoc, splitext_concat]
  · intro p
    rfl

/-- Witness for C5 at the documented example filename. -/
theorem mapped_basename_spec_witness :
    osBasename (to_test_path ("src/pkg".data ++ '/' :: "mod.py".data))
      = testMarker ++ "mod.py".data :=
  mapped_basename_spec.1 ("src/pkg".data) ("mod.py".data) (by decide)

/-- C6: any path with a `/`-segment among the excluded directory names,
or with a segment starting with the hidden-file dot, or whose basename
starts with `test_`, is skipped by `should_skip` and therefore never
appears in the discovery output, whatever candidate list the enumeration
strategies produced and whatever the regular-file oracle says. -/
theorem discovery_exclusion_spec (path : List Char)
    (h : (∃ seg ∈ pySplit ['/'] path, seg ∈ excludedNames)
      ∨ (∃ seg ∈ pySplit ['/'] path, (['.'] : List Char).isPrefixOf seg = true)
      ∨ testMarker.isPrefixOf (osBasename path) = true) :
    should_skip path = true
    ∧ ∀ (isFile : List Char → Bool) (cands : List (List Char)),
        path ∉ discoveredFiles isFile cands := by
  have hs : should_skip path = true := by
    rcases h with h | h | h
    · apply should_skip_eq_true_of_names
      rw [List.any_eq_true]
      obtain ⟨seg, hm, hseg⟩ := h
      exact ⟨seg, hm, List.elem_eq_true_of_mem hseg⟩
    · apply should_skip_eq_true_of_hidden
      rw [List.any_eq_true]
      exact h
    · exact should_skip_eq_true_of_testname h
  refine ⟨hs, ?_⟩
  intro isFile cands hmem
  rw [not_skipped_of_discovered hmem] at hs
  exact Bool.false_ne_true hs

/-- Witness for C6: a path inside a `tests` directory is skipped and
excluded from a concrete discovery. -/
theorem discovery_exclusion_spec_witness :
    should_skip ("pkg/tests/util.py".data) = true
    ∧ "pkg/tests/util.py".data
        ∉ discoveredFiles (fun _ => true) ["pkg/tests/util.py".data, "a.py".data] :=
  ⟨(discovery_exclusion_spec ("pkg/tests/util.py".data)
      (Or.inl ⟨"tests".data, by decide, by decide⟩)).1,
    (discovery_exclusion_spec ("pkg/tests/util.py".data)
      (Or.inl ⟨"tests".data, by decide, by decide⟩)).2 (fun _ => true)
      ["pkg/tests/util.py".data, "a.py".data]⟩

/-- C7: the run never touches a source file — every write performed by
the orchestration loop targets a path beginning with the destination root
`tests/` (given that discovery produced well-formed relative paths: not
absolute and with no empty segment right after the `src/` root), and
since discovery excludes every path containing a `tests` segment, no
written path can equal any discovered source path. -/
theorem writes_spare_sources (env : Env) (isFile : List Char → Bool)
    (cands : List (List Char))
    (hval : ∀ f ∈ discoveredFiles isFile cands,
      f.head? ≠ some '/' ∧ "src//".data.isPrefixOf f = false) :
    ∀ w ∈ (mainRun env (discoveredFiles isFile cands)).writes,
      "tests/".data.isPrefixOf w.1 = true
      ∧ ∀ f ∈ discoveredFiles isFile cands, w.1 ≠ f := by
  intro w hw
  have hne : discoveredFiles isFile cands ≠ [] := by
    intro he
    rw [he, mainRun_empty] at hw
    simp at hw
  rw [mainRun_writes env hne, List.mem_filterMap] at hw
  obtain ⟨g, hgmem, hgw⟩ := hw
  have hgfiles : g ∈ discoveredFiles isFile cands :=
    (sortFiles_perm (discoveredFiles isFile cands)).mem_iff.mp hgmem
  have hw1 : w.1 = to_test_path g := by
    unfold writeOf at hgw
    cases hp : processFile env g with
    | ok v =>
      rw [hp] at hgw
      simp only [Option.some.injEq] at hgw
      rw [← hgw]
      exact processFile_ok_fst hp
    | error e => rw [hp] at hgw; simp at hgw
  have hpref : "tests/".data.isPrefixOf w.1 = true := by
    rw [hw1]
    exact tests_isPrefixOf_to_test_path (hval g hgfiles).1 (hval g hgfiles).2
  refine ⟨hpref, ?_⟩
  intro f hf
  exact write_ne_discovered hpref (not_skipped_of_discovered hf)

/-- Witness for C7: the single write of a concrete run lands under
`tests/` and differs from the discovered source path. -/
theorem writes_spare_sources_witness :
    "tests/".data.isPrefixOf
        ("tests/pkg/test_mod.py".data, "x = 1".data).1 = true
    ∧ ("tests/pkg/test_mod.py".data, "x = 1".data).1 ≠ "src/pkg/mod.py".data := by
  have h := writes_spare_sources envOk (fun _ => true) ["src/pkg/mod.py".data]
    (by decide) ("tests/pkg/test_mod.py".data, "x = 1".data) (by decide)
  exact ⟨h.1, h.2 ("src/pkg/mod.py".data) (by decide)⟩
